import Mathlib

/-!
Shallow embedding of the meal-planner recommendation engine
(`src/recommendations.py`, function `recommend`) and of the history
writer (`src/data_manager.py`, function `save_today_pick`).

Modelling conventions:
* A pandas `DataFrame` row becomes a structure; a frame becomes a `List`.
* Calendar dates are day numbers (`Int`); a missing or unparseable date
  (`NaN`/`NaT` after `pd.to_datetime(..., errors="coerce")`) is `none`.
* `random.random()` is an injected stream `rand : Nat → ℚ` of values in
  `[0, 1)`; the code consumes one value per call, in program order:
  first one per eligible row (the `score` column), then one per draw
  taken inside the selection loop.
* `pandas.sort_values` (an unstable sort on the `score` column) is
  modelled by `List.insertionSort` on the score key: any correct sort of
  the scored rows; ties between equal scores keep file order here.
* Rational arithmetic is routed through `mkRat` so that all definitions
  evaluate by kernel reduction; the lemmas `ratAddInt_eq` and
  `ratDiv100_eq` below prove these helpers equal to the `+` and `/ 100`
  formulas of the source.
-/

namespace MealPlanner

/-- A row of the master list (`master_list.csv`): columns `Recipe`, `Item Type`. -/
structure Recipe where
  name : String
  itype : String
deriving DecidableEq, Repr

/-- A row of the history table: columns `Date`, `Recipe`, `Item Type`.
`date = none` models a missing or unparseable date; `itype = none` a
missing category value. -/
structure HistEntry where
  date : Option Int
  recipe : String
  itype : Option String
deriving DecidableEq, Repr

/-- A candidate row built by `recommend`: the master row enriched with the
`Last Eaten` and `Days Ago` columns. -/
structure Cand where
  name : String
  itype : String
  lastEaten : Option Int
  daysAgo : Option Int
deriving DecidableEq, Repr

/-- Maximum of a list of dates (empty list gives `none`). -/
def maxDate : List Int → Option Int
  | [] => none
  | d :: ds =>
    match maxDate ds with
    | none => some d
    | some m => some (if m < d then d else m)

/-- The most recent history date recorded for recipe `r`:
`history_df.dropna(subset=["Date"]).sort_values("Date", ascending=False)
.groupby("Recipe")["Date"].first()` keeps, per recipe, the largest
non-null date. -/
def lastDate (history : List HistEntry) (r : String) : Option Int :=
  maxDate (history.filterMap (fun e => if e.recipe = r then e.date else none))

/-- One candidate row: `Last Eaten` is the mapped last date, `Days Ago`
is `compute_days`, i.e. `(today - last).days` when the date is present. -/
def mkCand (history : List HistEntry) (today : Int) (r : Recipe) : Cand :=
  { name := r.name
    itype := r.itype
    lastEaten := lastDate history r.name
    daysAgo := (lastDate history r.name).map (fun d => today - d) }

/-- The candidate frame before filtering (`candidates` after line 42). -/
def candList (catalog : List Recipe) (history : List HistEntry) (today : Int) : List Cand :=
  catalog.map (mkCand history today)

/-- The 7-day filter of line 45: keep rows whose `DaysAgo_num` is NaN
(never eaten) or at least 7. -/
def eligibleB (c : Cand) : Bool :=
  match c.daysAgo with
  | none => true
  | some d => decide (7 ≤ d)

/-- The filtered candidate frame (`candidates` after line 45). -/
def eligList (catalog : List Recipe) (history : List HistEntry) (today : Int) : List Cand :=
  (candList catalog history today).filter eligibleB

/-- Number of distinct recipe names among the filtered candidates. -/
def eligCount (catalog : List Recipe) (history : List HistEntry) (today : Int) : Nat :=
  ((eligList catalog history today).map Cand.name).dedup.length

/-- Executable form of `(n : ℚ) + r` (see `ratAddInt_eq`). -/
def ratAddInt (n : Int) (r : ℚ) : ℚ :=
  mkRat (n * r.den + r.num) r.den

/-- Executable form of `r / 100` (see `ratDiv100_eq`). -/
def ratDiv100 (r : ℚ) : ℚ :=
  mkRat r.num (100 * r.den)

/-- `score_row` of lines 55-59: a never-eaten row scores
`9999 + random.random()`; a dated row scores
`days_ago + random.random() * 0.01`.  `r` is the random value drawn for
this row. -/
def scoreFn (c : Cand) (r : ℚ) : ℚ :=
  match c.daysAgo with
  | none => ratAddInt 9999 r
  | some d => ratAddInt d (ratDiv100 r)

/-- The `score` column: the random stream is consumed once per filtered
row, in row order (`candidates.apply(score_row, axis=1)`). -/
def scoredOf (elig : List Cand) (rand : Nat → ℚ) : List (Cand × ℚ) :=
  elig.enum.map (fun p => (p.2, scoreFn p.2 (rand p.1)))

/-- Descending order on the `score` column (`ascending=False`). -/
def scoreGe (a b : Cand × ℚ) : Prop := b.2 ≤ a.2

instance : DecidableRel scoreGe :=
  fun a b => inferInstanceAs (Decidable (b.2 ≤ a.2))

instance : IsTotal (Cand × ℚ) scoreGe :=
  ⟨fun a b => le_total b.2 a.2⟩

instance : IsTrans (Cand × ℚ) scoreGe :=
  ⟨fun _ _ _ h1 h2 => le_trans h2 h1⟩

/-- The scored rows sorted by score descending (line 64). -/
def sortedScoredOf (elig : List Cand) (rand : Nat → ℚ) : List (Cand × ℚ) :=
  (scoredOf elig rand).insertionSort scoreGe

/-- The candidate rows in sorted order. -/
def sortedOf (elig : List Cand) (rand : Nat → ℚ) : List Cand :=
  (sortedScoredOf elig rand).map Prod.fst

/-- `Item Type` of the most recent dated history row (lines 48-52).
Among several rows sharing the maximal date the source's unstable sort
leaves the winner unspecified; the model takes the first in file order.
A missing `Item Type` (`NaN`) is `none`. -/
def lastItemType (history : List HistEntry) : Option String :=
  match maxDate (history.filterMap (fun e => e.date)) with
  | none => none
  | some m => (history.find? (fun e => e.date == some m)).bind (fun e => e.itype)

/-- Python truthiness test of line 80: `last_item_type and itype ==
last_item_type`.  `None` and `""` are falsy; a `NaN` category (also
modelled by `none`) is truthy but never equal to a string. -/
def lastTMatch (lastT : Option String) (ity : String) : Bool :=
  match lastT with
  | none => false
  | some t => !(t == "") && (ity == t)

/-- Guard of line 85: `picked_types and itype == picked_types[-1]`. -/
def adjMatch (row : Cand) (picks : List Cand) : Bool :=
  match picks.getLast? with
  | none => false
  | some p => row.itype == p.itype

/-- Guard of line 88: `recipe_name in picked_recipes`. -/
def dupMatch (row : Cand) (picks : List Cand) : Bool :=
  picks.any (fun p => p.name == row.name)

/-- Lines 88-93: append the row unless its recipe name is already picked. -/
def appendPick (row : Cand) (picks : List Cand) : List Cand :=
  if dupMatch row picks then picks else picks ++ [row]

/-- Lines 85-93: the within-batch adjacency skip (probability 0.5),
then the duplicate check and the append. -/
def rowStepAdj (rand : Nat → ℚ) (row : Cand) (picks : List Cand) (k : Nat) :
    List Cand × Nat :=
  if adjMatch row picks then
    if rand k < mkRat 1 2 then (picks, k + 1)
    else (appendPick row picks, k + 1)
  else (appendPick row picks, k)

/-- Lines 80-93: the first-pick skip against yesterday's item type
(probability `skip_same_type_prob = 0.7`), then `rowStepAdj`. -/
def rowStep (lastT : Option String) (rand : Nat → ℚ) (row : Cand)
    (picks : List Cand) (k : Nat) : List Cand × Nat :=
  if lastTMatch lastT row.itype && picks.isEmpty then
    if rand k < mkRat 7 10 then (picks, k + 1)
    else rowStepAdj rand row picks (k + 1)
  else rowStepAdj rand row picks k

/-- The greedy selection loop of lines 73-93, with the `break` at
`max_count` (line 74).  `k` indexes the next unused random value. -/
def mainLoop (lastT : Option String) (maxC : Nat) (rand : Nat → ℚ) :
    List Cand → List Cand → Nat → List Cand × Nat
  | [], picks, k => (picks, k)
  | row :: rest, picks, k =>
    if maxC ≤ picks.length then (picks, k)
    else
      let s := rowStep lastT rand row picks k
      mainLoop lastT maxC rand rest s.1 s.2

/-- First fill pass, lines 96-105: walk the sorted rows again, ignoring
item types, until `min_count` picks. -/
def fillLoop (minC : Nat) : List Cand → List Cand → List Cand
  | [], picks => picks
  | row :: rest, picks =>
    if minC ≤ picks.length then picks
    else if dupMatch row picks then fillLoop minC rest picks
    else fillLoop minC rest (picks ++ [row])

/-- Second fill pass, lines 108-116: same walk, uniqueness decided by
`any(p.get("Recipe") == recipe_name for p in picks)`, with the length
check after the append. -/
def fillLoop2 (minC : Nat) : List Cand → List Cand → List Cand
  | [], picks => picks
  | row :: rest, picks =>
    if dupMatch row picks then fillLoop2 minC rest picks
    else
      if minC ≤ (picks ++ [row]).length then picks ++ [row]
      else fillLoop2 minC rest (picks ++ [row])

/-- The picks after the greedy loop of lines 73-93 (the score draws have
consumed random values `0, ..., |elig| - 1`, so the loop starts at index
`|elig|`). -/
def corePicks1 (lastT : Option String) (elig : List Cand) (maxC : Nat)
    (rand : Nat → ℚ) : List Cand :=
  (mainLoop lastT maxC rand (sortedOf elig rand) [] elig.length).1

/-- The picks after the first guarded fill pass (lines 96-105). -/
def corePicks2 (lastT : Option String) (elig : List Cand) (minC maxC : Nat)
    (rand : Nat → ℚ) : List Cand :=
  if (corePicks1 lastT elig maxC rand).length < minC then
    fillLoop minC (sortedOf elig rand) (corePicks1 lastT elig maxC rand)
  else corePicks1 lastT elig maxC rand

/-- The selection pipeline on an already filtered candidate list: greedy
loop, then the two guarded fill passes (`if len(picks) < min_count`), and
line 118's empty return (the identity on lists). -/
def recommendCore (lastT : Option String) (elig : List Cand)
    (minC maxC : Nat) (rand : Nat → ℚ) : List Cand :=
  if (corePicks2 lastT elig minC maxC rand).length < minC then
    fillLoop2 minC (sortedOf elig rand) (corePicks2 lastT elig minC maxC rand)
  else corePicks2 lastT elig minC maxC rand

/-- `recommend(master_df, history_df, min_count, max_count)`: the empty
catalog returns an empty frame (lines 14-15); otherwise the pipeline
above runs on the filtered candidates. -/
def recommend (catalog : List Recipe) (history : List HistEntry)
    (minC maxC : Nat) (today : Int) (rand : Nat → ℚ) : List Cand :=
  if catalog.isEmpty then []
  else recommendCore (lastItemType history) (eligList catalog history today) minC maxC rand

/-- The greedy-phase picks alone (the value of `picks` after line 93). -/
def mainPicks (catalog : List Recipe) (history : List HistEntry)
    (maxC : Nat) (today : Int) (rand : Nat → ℚ) : List Cand :=
  corePicks1 (lastItemType history) (eligList catalog history today) maxC rand

/-- The sorted candidate frame of line 64, before the selection loop. -/
def sortedCands (catalog : List Recipe) (history : List HistEntry)
    (today : Int) (rand : Nat → ℚ) : List Cand :=
  sortedOf (eligList catalog history today) rand

/-- The random stream takes values in `[0, 1)` like `random.random()`. -/
def randOk (rand : Nat → ℚ) : Prop :=
  ∀ n, 0 ≤ rand n ∧ rand n < 1

/-- Every random value signals a skip on both coin flips (values below 0.5). -/
def alwaysSkip (rand : Nat → ℚ) : Prop :=
  ∀ n, rand n < mkRat 1 2

/-- Two histories look identical to the engine: same most recent date
for every recipe name and same category on the most recent entry. -/
def sameHistView (hist1 hist2 : List HistEntry) : Prop :=
  (∀ r, lastDate hist1 r = lastDate hist2 r) ∧ lastItemType hist1 = lastItemType hist2

/-- Python `str.strip()`: drop leading and trailing whitespace.
(Structurally recursive counterpart of `String.trim`, so that concrete
instances evaluate by kernel reduction.) -/
def trimStr (s : String) : String :=
  String.mk (((s.data.dropWhile Char.isWhitespace).reverse.dropWhile Char.isWhitespace).reverse)

/-- Python `str.lower()`: lower-case every character. -/
def lowerStr (s : String) : String :=
  String.mk (s.data.map Char.toLower)

/-- Membership test for rows dated `today` (the
`history["Date"].dt.strftime("%Y-%m-%d") == today` mask; `NaT` rows never
match). -/
def todayB (today : Int) (e : HistEntry) : Bool :=
  e.date == some today

/-- Number of history rows dated `today`. -/
def countToday (history : List HistEntry) (today : Int) : Nat :=
  (history.filter (todayB today)).length

/-- Does the first row dated today already name this recipe
(case-insensitive, after trimming)? -/
def samePickB (history : List HistEntry) (recipe : String) (today : Int) : Bool :=
  match history.find? (todayB today) with
  | some e0 => lowerStr (trimStr e0.recipe) == lowerStr (trimStr recipe)
  | none => false

/-- `save_today_pick(recipe, item_type)` of `src/data_manager.py`,
as a pure function of the loaded history (the GitHub/local persistence
of the updated frame is outside the data model): if a row dated today
exists and already names this recipe (case-insensitive, trimmed) the
history is returned unchanged; otherwise today's rows are dropped and
one new row `(today, recipe.strip(), str(item_type).strip())` is
appended. -/
def save_today_pick (history : List HistEntry) (recipe itype : String)
    (today : Int) : List HistEntry :=
  match history.find? (todayB today) with
  | some e0 =>
    if lowerStr (trimStr e0.recipe) == lowerStr (trimStr recipe) then history
    else
      history.filter (fun e => !todayB today e) ++
        [{ date := some today, recipe := trimStr recipe, itype := some (trimStr itype) }]
  | none =>
    history ++ [{ date := some today, recipe := trimStr recipe, itype := some (trimStr itype) }]

/-! ### Basic lemmas about the embedding -/

/-- `ratAddInt` is integer-plus-rational, the `9999 + random.random()`
and `float(da) + ...` additions of `score_row`. -/
theorem ratAddInt_eq (n : Int) (r : ℚ) : ratAddInt n r = (n : ℚ) + r := by
  have hd : ((r.den : ℚ)) ≠ 0 := by
    exact_mod_cast r.den_nz
  rw [ratAddInt, Rat.mkRat_eq_div]
  push_cast
  rw [add_div, mul_div_assoc, div_self hd, mul_one, Rat.num_div_den]

/-- `ratDiv100` is division by 100, the `random.random() * 0.01` factor
of `score_row`. -/
theorem ratDiv100_eq (r : ℚ) : ratDiv100 r = r / 100 := by
  have hd : ((r.den : ℚ)) ≠ 0 := by
    exact_mod_cast r.den_nz
  rw [ratDiv100, Rat.mkRat_eq_div]
  push_cast
  rw [mul_comm, div_mul_eq_div_div, Rat.num_div_den]

/-- `dupMatch` decides membership of the row's name among picked names. -/
theorem dupMatch_false_iff (row : Cand) (picks : List Cand) :
    dupMatch row picks = false ↔ row.name ∉ picks.map Cand.name := by
  simp [dupMatch, List.any_eq_false, List.mem_map]

/-- `appendPick` leaves the picks unchanged or appends a new name. -/
theorem appendPick_cases (row : Cand) (picks : List Cand) :
    appendPick row picks = picks ∨
      (appendPick row picks = picks ++ [row] ∧ dupMatch row picks = false) := by
  unfold appendPick
  split
  · exact Or.inl rfl
  · rename_i h
    exact Or.inr ⟨rfl, by simpa using h⟩

/-- One pass of the greedy loop leaves the picks unchanged or appends the
current row, and appends only when its name is not yet picked. -/
theorem rowStep_cases (lastT : Option String) (rand : Nat → ℚ) (row : Cand)
    (picks : List Cand) (k : Nat) :
    (rowStep lastT rand row picks k).1 = picks ∨
      ((rowStep lastT rand row picks k).1 = picks ++ [row] ∧
        dupMatch row picks = false) := by
  have hadj : (rowStepAdj rand row picks k).1 = picks ∨
      (rowStepAdj rand row picks k).1 = appendPick row picks := by
    unfold rowStepAdj
    split
    · split
      · exact Or.inl rfl
      · exact Or.inr rfl
    · exact Or.inr rfl
  have hstep : (rowStep lastT rand row picks k).1 = picks ∨
      (rowStep lastT rand row picks k).1 = appendPick row picks := by
    unfold rowStep
    split
    · split
      · exact Or.inl rfl
      · have : (rowStepAdj rand row picks (k + 1)).1 = picks ∨
            (rowStepAdj rand row picks (k + 1)).1 = appendPick row picks := by
          unfold rowStepAdj
          split
          · split
            · exact Or.inl rfl
            · exact Or.inr rfl
          · exact Or.inr rfl
        exact this
    · exact hadj
  rcases hstep with h | h
  · exact Or.inl h
  · rcases appendPick_cases row picks with h2 | ⟨h2, h3⟩
    · exact Or.inl (h.trans h2)
    · exact Or.inr ⟨h.trans h2, h3⟩

/-- The greedy loop never exceeds `max_count` picks. -/
theorem mainLoop_length_le (lastT : Option String) (maxC : Nat) (rand : Nat → ℚ)
    (rows : List Cand) :
    ∀ picks k, picks.length ≤ maxC →
      ((mainLoop lastT maxC rand rows picks k).1).length ≤ maxC := by
  induction rows with
  | nil => intro picks k h; simpa [mainLoop] using h
  | cons row rest ih =>
    intro picks k h
    rw [mainLoop]
    split
    · exact h
    · rename_i hguard
      have hlt : picks.length < maxC := Nat.lt_of_not_le hguard
      apply ih
      rcases rowStep_cases lastT rand row picks k with h1 | ⟨h1, _⟩
      · rw [h1]; exact h
      · rw [h1]; simpa using hlt

/-- Every pick produced by the greedy loop is an initial pick or one of
the processed rows. -/
theorem mainLoop_subset (lastT : Option String) (maxC : Nat) (rand : Nat → ℚ)
    (rows : List Cand) :
    ∀ picks k c, c ∈ (mainLoop lastT maxC rand rows picks k).1 →
      c ∈ picks ∨ c ∈ rows := by
  induction rows with
  | nil => intro picks k c h; exact Or.inl (by simpa [mainLoop] using h)
  | cons row rest ih =>
    intro picks k c h
    rw [mainLoop] at h
    split at h
    · exact Or.inl h
    · rcases ih _ _ _ h with hmem | hmem
      · rcases rowStep_cases lastT rand row picks k with h1 | ⟨h1, _⟩
        · rw [h1] at hmem; exact Or.inl hmem
        · rw [h1] at hmem
          rcases List.mem_append.mp hmem with h2 | h2
          · exact Or.inl h2
          · exact Or.inr (by simp at h2; simp [h2])
      · exact Or.inr (List.mem_cons_of_mem _ hmem)

/-- The greedy loop preserves distinctness of picked recipe names. -/
theorem mainLoop_nodup (lastT : Option String) (maxC : Nat) (rand : Nat → ℚ)
    (rows : List Cand) :
    ∀ picks k, (picks.map Cand.name).Nodup →
      (((mainLoop lastT maxC rand rows picks k).1).map Cand.name).Nodup := by
  induction rows with
  | nil => intro picks k h; simpa [mainLoop] using h
  | cons row rest ih =>
    intro picks k h
    rw [mainLoop]
    split
    · exact h
    · apply ih
      rcases rowStep_cases lastT rand row picks k with h1 | ⟨h1, h2⟩
      · rw [h1]; exact h
      · rw [h1]
        rw [List.map_append, List.nodup_append]
        refine ⟨h, by simp, ?_⟩
        intro a ha hb
        simp at hb
        rw [dupMatch_false_iff] at h2
        exact h2 (hb ▸ ha)

/-- Every pick left by the first fill pass is an initial pick or a row. -/
theorem fillLoop_subset (minC : Nat) (rows : List Cand) :
    ∀ picks c, c ∈ fillLoop minC rows picks → c ∈ picks ∨ c ∈ rows := by
  induction rows with
  | nil => intro picks c h; exact Or.inl (by simpa [fillLoop] using h)
  | cons row rest ih =>
    intro picks c h
    rw [fillLoop] at h
    split at h
    · exact Or.inl h
    · split at h
      · rcases ih _ _ h with h1 | h1
        · exact Or.inl h1
        · exact Or.inr (List.mem_cons_of_mem _ h1)
      · rcases ih _ _ h with h1 | h1
        · rcases List.mem_append.mp h1 with h2 | h2
          · exact Or.inl h2
          · exact Or.inr (by simp at h2; simp [h2])
        · exact Or.inr (List.mem_cons_of_mem _ h1)

/-- The first fill pass preserves distinctness of picked names. -/
theorem fillLoop_nodup (minC : Nat) (rows : List Cand) :
    ∀ picks, (picks.map Cand.name).Nodup →
      ((fillLoop minC rows picks).map Cand.name).Nodup := by
  induction rows with
  | nil => intro picks h; simpa [fillLoop] using h
  | cons row rest ih =>
    intro picks h
    rw [fillLoop]
    split
    · exact h
    · split
      · exact ih _ h
      · rename_i hdup
        apply ih
        rw [List.map_append, List.nodup_append]
        refine ⟨h, by simp, ?_⟩
        intro a ha hb
        simp at hb
        have h2 : dupMatch row picks = false := by simpa using hdup
        rw [dupMatch_false_iff] at h2
        exact h2 (hb ▸ ha)

/-- The first fill pass can only grow the pick list. -/
theorem fillLoop_mem_mono (minC : Nat) (rows : List Cand) :
    ∀ picks c, c ∈ picks → c ∈ fillLoop minC rows picks := by
  induction rows with
  | nil => intro picks c h; simpa [fillLoop] using h
  | cons row rest ih =>
    intro picks c h
    rw [fillLoop]
    split
    · exact h
    · split
      · exact ih _ _ h
      · exact ih _ _ (List.mem_append_left _ h)

/-- The first fill pass never grows the picks beyond `min_count` (or
beyond their initial length if that was already larger). -/
theorem fillLoop_length_le (minC : Nat) (rows : List Cand) :
    ∀ picks, (fillLoop minC rows picks).length ≤ max picks.length minC := by
  induction rows with
  | nil => intro picks; simp [fillLoop]
  | cons row rest ih =>
    intro picks
    rw [fillLoop]
    split
    · exact Nat.le_max_left _ _
    · rename_i hguard
      have hlt : picks.length < minC := Nat.lt_of_not_le hguard
      split
      · exact ih _
      · calc (fillLoop minC rest (picks ++ [row])).length
            ≤ max (picks ++ [row]).length minC := ih _
          _ ≤ max picks.length minC := by
              simp only [List.length_append, List.length_singleton]
              exact max_le (le_max_of_le_right hlt) (Nat.le_max_right _ _)

/-- After the first fill pass, either `min_count` picks were reached or
every remaining row's name is among the picked names. -/
theorem fillLoop_min_reached (minC : Nat) (rows : List Cand) :
    ∀ picks, minC ≤ (fillLoop minC rows picks).length ∨
      ∀ row ∈ rows, row.name ∈ (fillLoop minC rows picks).map Cand.name := by
  induction rows with
  | nil => intro picks; exact Or.inr (by simp)
  | cons row rest ih =>
    intro picks
    rw [fillLoop]
    split
    · exact Or.inl (by assumption)
    · split
      · rename_i hdup
        rcases ih picks with h | h
        · exact Or.inl h
        · refine Or.inr ?_
          intro r hr
          rcases List.mem_cons.mp hr with h1 | h1
          · subst h1
            have h2 : r.name ∈ picks.map Cand.name := by
              by_contra hc
              rw [← dupMatch_false_iff] at hc
              simp [hc] at hdup
            rcases List.mem_map.mp h2 with ⟨c, hc1, hc2⟩
            exact List.mem_map.mpr ⟨c, fillLoop_mem_mono _ _ _ _ hc1, hc2⟩
          · exact h r h1
      · rcases ih (picks ++ [row]) with h | h
        · exact Or.inl h
        · refine Or.inr ?_
          intro r hr
          rcases List.mem_cons.mp hr with h1 | h1
          · subst h1
            exact List.mem_map.mpr
              ⟨r, fillLoop_mem_mono _ _ _ _ (List.mem_append_right _ (by simp)), rfl⟩
          · exact h r h1

/-- Every pick left by the second fill pass is an initial pick or a row. -/
theorem fillLoop2_subset (minC : Nat) (rows : List Cand) :
    ∀ picks c, c ∈ fillLoop2 minC rows picks → c ∈ picks ∨ c ∈ rows := by
  induction rows with
  | nil => intro picks c h; exact Or.inl (by simpa [fillLoop2] using h)
  | cons row rest ih =>
    intro picks c h
    rw [fillLoop2] at h
    split at h
    · rcases ih _ _ h with h1 | h1
      · exact Or.inl h1
      · exact Or.inr (List.mem_cons_of_mem _ h1)
    · have hsplit : c ∈ picks ++ [row] ∨ c ∈ rest := by
        split at h
        · exact Or.inl h
        · exact ih _ _ h
      rcases hsplit with h1 | h1
      · rcases List.mem_append.mp h1 with h2 | h2
        · exact Or.inl h2
        · exact Or.inr (by simp at h2; simp [h2])
      · exact Or.inr (List.mem_cons_of_mem _ h1)

/-- The second fill pass preserves distinctness of picked names. -/
theorem fillLoop2_nodup (minC : Nat) (rows : List Cand) :
    ∀ picks, (picks.map Cand.name).Nodup →
      ((fillLoop2 minC rows picks).map Cand.name).Nodup := by
  induction rows with
  | nil => intro picks h; simpa [fillLoop2] using h
  | cons row rest ih =>
    intro picks h
    rw [fillLoop2]
    split
    · exact ih _ h
    · rename_i hdup
      have h2 : dupMatch row picks = false := by simpa using hdup
      have hnodup : ((picks ++ [row]).map Cand.name).Nodup := by
        rw [List.map_append, List.nodup_append]
        refine ⟨h, by simp, ?_⟩
        intro a ha hb
        simp at hb
        rw [dupMatch_false_iff] at h2
        exact h2 (hb ▸ ha)
      split
      · exact hnodup
      · exact ih _ hnodup

/-- The second fill pass can only grow the pick list. -/
theorem fillLoop2_mem_mono (minC : Nat) (rows : List Cand) :
    ∀ picks c, c ∈ picks → c ∈ fillLoop2 minC rows picks := by
  induction rows with
  | nil => intro picks c h; simpa [fillLoop2] using h
  | cons row rest ih =>
    intro picks c h
    rw [fillLoop2]
    split
    · exact ih _ _ h
    · split
      · exact List.mem_append_left _ h
      · exact ih _ _ (List.mem_append_left _ h)

/-- Entered below `min_count`, the second fill pass stops at `min_count`. -/
theorem fillLoop2_length_le (minC : Nat) (rows : List Cand) :
    ∀ picks, picks.length < minC → (fillLoop2 minC rows picks).length ≤ minC := by
  induction rows with
  | nil => intro picks h; simpa [fillLoop2] using Nat.le_of_lt h
  | cons row rest ih =>
    intro picks h
    rw [fillLoop2]
    split
    · exact ih _ h
    · split
      · simpa using h
      · rename_i hguard
        exact ih _ (Nat.lt_of_not_le hguard)

/-- Dropping the score column from the scored rows recovers the filtered
rows in their original order. -/
theorem scoredOf_map_fst (elig : List Cand) (rand : Nat → ℚ) :
    (scoredOf elig rand).map Prod.fst = elig := by
  rw [scoredOf, List.map_map]
  have : (Prod.fst ∘ fun p : Nat × Cand => (p.2, scoreFn p.2 (rand p.1))) = Prod.snd := by
    funext p
    rfl
  rw [this, List.enum_map_snd]

/-- The sorted candidate list is a permutation of the filtered list. -/
theorem sortedOf_perm (elig : List Cand) (rand : Nat → ℚ) :
    (sortedOf elig rand).Perm elig := by
  have h1 : (sortedScoredOf elig rand).Perm (scoredOf elig rand) :=
    List.perm_insertionSort scoreGe (scoredOf elig rand)
  have h2 := h1.map Prod.fst
  rwa [scoredOf_map_fst] at h2

/-- Membership transfer between the sorted and the filtered rows. -/
theorem mem_sortedOf_iff (elig : List Cand) (rand : Nat → ℚ) (c : Cand) :
    c ∈ sortedOf elig rand ↔ c ∈ elig :=
  (sortedOf_perm elig rand).mem_iff

/-- A list of distinct names contained in another name list is no longer
than the latter's count of distinct names. -/
theorem nodup_names_length_le (l1 l2 : List String) (hn : l1.Nodup)
    (h : ∀ a ∈ l1, a ∈ l2) : l1.length ≤ l2.dedup.length := by
  have hsub : l1.toFinset ⊆ l2.toFinset := by
    intro a ha
    rw [List.mem_toFinset] at ha ⊢
    exact h a ha
  calc l1.length = l1.toFinset.card := (List.toFinset_card_of_nodup hn).symm
    _ ≤ l2.toFinset.card := Finset.card_le_card hsub
    _ = l2.dedup.length := List.card_toFinset l2

/-- A name list covering another list has at least that list's count of
distinct names. -/
theorem dedup_length_le_of_subset (l1 l2 : List String)
    (h : ∀ a ∈ l1, a ∈ l2) : l1.dedup.length ≤ l2.length := by
  have hsub : l1.toFinset ⊆ l2.toFinset := by
    intro a ha
    rw [List.mem_toFinset] at ha ⊢
    exact h a ha
  calc l1.dedup.length = l1.toFinset.card := (List.card_toFinset l1).symm
    _ ≤ l2.toFinset.card := Finset.card_le_card hsub
    _ ≤ l2.length := List.toFinset_card_le l2

/-- Greedy-phase picks come from the filtered candidate rows. -/
theorem corePicks1_subset (lastT : Option String) (elig : List Cand)
    (maxC : Nat) (rand : Nat → ℚ) (c : Cand)
    (h : c ∈ corePicks1 lastT elig maxC rand) : c ∈ elig := by
  rcases mainLoop_subset lastT maxC rand (sortedOf elig rand) [] elig.length c h with
    h1 | h1
  · simp at h1
  · exact (mem_sortedOf_iff elig rand c).mp h1

/-- Greedy-phase picks carry distinct recipe names. -/
theorem corePicks1_nodup (lastT : Option String) (elig : List Cand)
    (maxC : Nat) (rand : Nat → ℚ) :
    ((corePicks1 lastT elig maxC rand).map Cand.name).Nodup :=
  mainLoop_nodup lastT maxC rand (sortedOf elig rand) [] elig.length (by simp)

/-- The greedy phase picks at most `max_count` rows. -/
theorem corePicks1_length_le (lastT : Option String) (elig : List Cand)
    (maxC : Nat) (rand : Nat → ℚ) :
    (corePicks1 lastT elig maxC rand).length ≤ maxC :=
  mainLoop_length_le lastT maxC rand (sortedOf elig rand) [] elig.length (by simp)

/-- After the first fill pass, picks still come from the filtered rows. -/
theorem corePicks2_subset (lastT : Option String) (elig : List Cand)
    (minC maxC : Nat) (rand : Nat → ℚ) (c : Cand)
    (h : c ∈ corePicks2 lastT elig minC maxC rand) : c ∈ elig := by
  rw [corePicks2] at h
  split at h
  · rcases fillLoop_subset minC (sortedOf elig rand) _ c h with h1 | h1
    · exact corePicks1_subset lastT elig maxC rand c h1
    · exact (mem_sortedOf_iff elig rand c).mp h1
  · exact corePicks1_subset lastT elig maxC rand c h

/-- After the first fill pass, names are still distinct. -/
theorem corePicks2_nodup (lastT : Option String) (elig : List Cand)
    (minC maxC : Nat) (rand : Nat → ℚ) :
    ((corePicks2 lastT elig minC maxC rand).map Cand.name).Nodup := by
  rw [corePicks2]
  split
  · exact fillLoop_nodup minC (sortedOf elig rand) _ (corePicks1_nodup lastT elig maxC rand)
  · exact corePicks1_nodup lastT elig maxC rand

/-- After the first fill pass, the pick count stays at most `max_count`
provided `min_count ≤ max_count`. -/
theorem corePicks2_length_le (lastT : Option String) (elig : List Cand)
    (minC maxC : Nat) (rand : Nat → ℚ) (h : minC ≤ maxC) :
    (corePicks2 lastT elig minC maxC rand).length ≤ maxC := by
  rw [corePicks2]
  split
  · calc (fillLoop minC (sortedOf elig rand) (corePicks1 lastT elig maxC rand)).length
        ≤ max (corePicks1 lastT elig maxC rand).length minC := fillLoop_length_le _ _ _
      _ ≤ maxC := max_le (corePicks1_length_le lastT elig maxC rand) h
  · exact corePicks1_length_le lastT elig maxC rand

/-- After the first fill pass, either `min_count` picks were reached or
every sorted row's name was picked. -/
theorem corePicks2_min_reached (lastT : Option String) (elig : List Cand)
    (minC maxC : Nat) (rand : Nat → ℚ) :
    minC ≤ (corePicks2 lastT elig minC maxC rand).length ∨
      ∀ row ∈ sortedOf elig rand,
        row.name ∈ (corePicks2 lastT elig minC maxC rand).map Cand.name := by
  rw [corePicks2]
  split
  · exact fillLoop_min_reached minC (sortedOf elig rand) _
  · rename_i hguard
    exact Or.inl (Nat.le_of_not_lt hguard)

/-- The final picks come from the filtered candidate rows. -/
theorem recommendCore_subset (lastT : Option String) (elig : List Cand)
    (minC maxC : Nat) (rand : Nat → ℚ) (c : Cand)
    (h : c ∈ recommendCore lastT elig minC maxC rand) : c ∈ elig := by
  rw [recommendCore] at h
  split at h
  · rcases fillLoop2_subset minC (sortedOf elig rand) _ c h with h1 | h1
    · exact corePicks2_subset lastT elig minC maxC rand c h1
    · exact (mem_sortedOf_iff elig rand c).mp h1
  · exact corePicks2_subset lastT elig minC maxC rand c h

/-- The final picks carry distinct recipe names. -/
theorem recommendCore_nodup (lastT : Option String) (elig : List Cand)
    (minC maxC : Nat) (rand : Nat → ℚ) :
    ((recommendCore lastT elig minC maxC rand).map Cand.name).Nodup := by
  rw [recommendCore]
  split
  · exact fillLoop2_nodup minC (sortedOf elig rand) _
      (corePicks2_nodup lastT elig minC maxC rand)
  · exact corePicks2_nodup lastT elig minC maxC rand

/-- The final pick count is at most `max_count` when
`min_count ≤ max_count`. -/
theorem recommendCore_length_le (lastT : Option String) (elig : List Cand)
    (minC maxC : Nat) (rand : Nat → ℚ) (h : minC ≤ maxC) :
    (recommendCore lastT elig minC maxC rand).length ≤ maxC := by
  rw [recommendCore]
  split
  · rename_i hguard
    exact le_trans (fillLoop2_length_le minC (sortedOf elig rand) _ hguard) h
  · exact corePicks2_length_le lastT elig minC maxC rand h

/-- The final pick count is at most the number of distinct filtered
names. -/
theorem recommendCore_length_le_names (lastT : Option String) (elig : List Cand)
    (minC maxC : Nat) (rand : Nat → ℚ) :
    (recommendCore lastT elig minC maxC rand).length ≤
      (elig.map Cand.name).dedup.length := by
  have hlen : (recommendCore lastT elig minC maxC rand).length =
      ((recommendCore lastT elig minC maxC rand).map Cand.name).length := by
    simp
  rw [hlen]
  apply nodup_names_length_le _ _ (recommendCore_nodup lastT elig minC maxC rand)
  intro a ha
  rcases List.mem_map.mp ha with ⟨c, hc, rfl⟩
  exact List.mem_map.mpr ⟨c, recommendCore_subset lastT elig minC maxC rand c hc, rfl⟩

/-- The final pick count reaches `min(min_count, distinct filtered names)`. -/
theorem recommendCore_length_lower (lastT : Option String) (elig : List Cand)
    (minC maxC : Nat) (rand : Nat → ℚ) :
    min minC ((elig.map Cand.name).dedup.length) ≤
      (recommendCore lastT elig minC maxC rand).length := by
  have hmono : ∀ c ∈ corePicks2 lastT elig minC maxC rand,
      c ∈ recommendCore lastT elig minC maxC rand := by
    intro c hc
    rw [recommendCore]
    split
    · exact fillLoop2_mem_mono minC (sortedOf elig rand) _ c hc
    · exact hc
  rcases corePicks2_min_reached lastT elig minC maxC rand with h | h
  · refine le_trans (Nat.min_le_left _ _) (le_trans h ?_)
    rw [recommendCore]
    split
    · rename_i hguard
      exact absurd hguard (Nat.not_lt_of_le h)
    · exact le_rfl
  · refine le_trans (Nat.min_le_right _ _) ?_
    have hcover : ∀ a ∈ elig.map Cand.name,
        a ∈ (recommendCore lastT elig minC maxC rand).map Cand.name := by
      intro a ha
      rcases List.mem_map.mp ha with ⟨c, hc, rfl⟩
      have hc2 : c ∈ sortedOf elig rand := (mem_sortedOf_iff elig rand c).mpr hc
      rcases List.mem_map.mp (h c hc2) with ⟨c2, hc21, hc22⟩
      exact List.mem_map.mpr ⟨c2, hmono c2 hc21, hc22⟩
    calc (elig.map Cand.name).dedup.length
        ≤ ((recommendCore lastT elig minC maxC rand).map Cand.name).length :=
          dedup_length_le_of_subset _ _ hcover
      _ = (recommendCore lastT elig minC maxC rand).length := by simp

/-- The selection pipeline on an empty filtered list yields no picks. -/
theorem recommendCore_nil (lastT : Option String) (minC maxC : Nat)
    (rand : Nat → ℚ) : recommendCore lastT [] minC maxC rand = [] := by
  have hs : sortedOf [] rand = [] := rfl
  have h1 : corePicks1 lastT [] maxC rand = [] := rfl
  have h2 : corePicks2 lastT [] minC maxC rand = [] := by
    rw [corePicks2, h1, hs]
    simp [fillLoop]
  rw [recommendCore, h2, hs]
  simp [fillLoop2]

/-- Every recommended row is one of the filtered candidate rows. -/
theorem recommend_subset_elig (catalog : List Recipe) (history : List HistEntry)
    (minC maxC : Nat) (today : Int) (rand : Nat → ℚ) (c : Cand)
    (h : c ∈ recommend catalog history minC maxC today rand) :
    c ∈ eligList catalog history today := by
  rw [recommend] at h
  split at h
  · simp at h
  · exact recommendCore_subset _ _ _ _ _ c h

/-- The output length always reaches `min(min_count, E)` where `E` is the
number of distinct filtered names. -/
theorem recommend_length_lower (catalog : List Recipe) (history : List HistEntry)
    (minC maxC : Nat) (today : Int) (rand : Nat → ℚ) :
    min minC (eligCount catalog history today) ≤
      (recommend catalog history minC maxC today rand).length := by
  rw [recommend]
  split
  · rename_i hemp
    have hcat : catalog = [] := List.isEmpty_iff.mp hemp
    subst hcat
    simp [eligCount, eligList, candList]
  · exact recommendCore_length_lower _ _ _ _ _

/-- The output length never exceeds `max_count` when
`min_count ≤ max_count`. -/
theorem recommend_length_le (catalog : List Recipe) (history : List HistEntry)
    (minC maxC : Nat) (today : Int) (rand : Nat → ℚ) (h : minC ≤ maxC) :
    (recommend catalog history minC maxC today rand).length ≤ maxC := by
  rw [recommend]
  split
  · simp
  · exact recommendCore_length_le _ _ _ _ _ h

/-- The output length never exceeds the number of distinct filtered names. -/
theorem recommend_length_le_names (catalog : List Recipe) (history : List HistEntry)
    (minC maxC : Nat) (today : Int) (rand : Nat → ℚ) :
    (recommend catalog history minC maxC today rand).length ≤
      eligCount catalog history today := by
  rw [recommend]
  split
  · simp
  · exact recommendCore_length_le_names _ _ _ _ _

/-- A history row with no (or an unparseable) date is invisible to the
per-recipe last-eaten computation. -/
theorem lastDate_ignore_undated (h1 h2 : List HistEntry) (e : HistEntry)
    (he : e.date = none) (r : String) :
    lastDate (h1 ++ e :: h2) r = lastDate (h1 ++ h2) r := by
  rw [lastDate, lastDate, List.filterMap_append, List.filterMap_append,
    List.filterMap_cons_none]
  split
  · exact he
  · rfl

/-- A history row with no date is invisible to the last-category lookup. -/
theorem lastItemType_ignore_undated (h1 h2 : List HistEntry) (e : HistEntry)
    (he : e.date = none) :
    lastItemType (h1 ++ e :: h2) = lastItemType (h1 ++ h2) := by
  rw [lastItemType, lastItemType, List.filterMap_append, List.filterMap_append,
    List.filterMap_cons_none he]
  cases hmax : maxDate ((h1.filterMap fun e => e.date) ++ (h2.filterMap fun e => e.date)) with
  | none => rfl
  | some m =>
    have hfind : List.find? (fun e => e.date == some m) (h1 ++ e :: h2) =
        List.find? (fun e => e.date == some m) (h1 ++ h2) := by
      rw [List.find?_append, List.find?_append, List.find?_cons_of_neg]
      simp [he]
    simp only [hfind]

/-- The candidate frame sees the history only through `lastDate`. -/
theorem candList_congr (catalog : List Recipe) (hist1 hist2 : List HistEntry)
    (today : Int) (hd : ∀ r, lastDate hist1 r = lastDate hist2 r) :
    candList catalog hist1 today = candList catalog hist2 today := by
  apply List.map_congr_left
  intro r _
  rw [mkCand, mkCand, hd]

/-- The engine reads the history only through the per-recipe last dates
and the category of the most recent entry. -/
theorem recommend_congr_view (catalog : List Recipe) (hist1 hist2 : List HistEntry)
    (minC maxC : Nat) (today : Int) (rand : Nat → ℚ)
    (hd : ∀ r, lastDate hist1 r = lastDate hist2 r)
    (ht : lastItemType hist1 = lastItemType hist2) :
    recommend catalog hist1 minC maxC today rand =
      recommend catalog hist2 minC maxC today rand := by
  rw [recommend, recommend, ht, eligList, eligList, candList_congr catalog hist1 hist2 today hd]

/-- Every sorted scored row's score is `score_row` of its candidate at
some value of the random stream. -/
theorem mem_sortedScoredOf (elig : List Cand) (rand : Nat → ℚ) (p : Cand × ℚ)
    (hp : p ∈ sortedScoredOf elig rand) : ∃ n, p.2 = scoreFn p.1 (rand n) := by
  rw [sortedScoredOf] at hp
  have hp2 : p ∈ scoredOf elig rand :=
    (List.perm_insertionSort scoreGe (scoredOf elig rand)).mem_iff.mp hp
  rw [scoredOf] at hp2
  rcases List.mem_map.mp hp2 with ⟨q, _, rfl⟩
  exact ⟨q.1, rfl⟩

/-- A never-eaten row scores `9999 + r`. -/
theorem scoreFn_none (c : Cand) (hc : c.daysAgo = none) (r : ℚ) :
    scoreFn c r = 9999 + r := by
  simp [scoreFn, hc, ratAddInt_eq]

/-- A dated row scores `days_ago + r / 100`. -/
theorem scoreFn_some (c : Cand) (d : Int) (hc : c.daysAgo = some d) (r : ℚ) :
    scoreFn c r = (d : ℚ) + r / 100 := by
  simp [scoreFn, hc, ratAddInt_eq, ratDiv100_eq]

/-- Appending a row whose category differs from the last pick's keeps
adjacent picked categories distinct. -/
theorem appendPick_chain (row : Cand) (picks : List Cand)
    (h : List.Chain' (fun a b => a.itype ≠ b.itype) picks)
    (hadj : adjMatch row picks = false) :
    List.Chain' (fun a b => a.itype ≠ b.itype) (appendPick row picks) := by
  rw [appendPick]
  split
  · exact h
  · rw [List.chain'_append]
    refine ⟨h, List.chain'_singleton _, ?_⟩
    intro x hx y hy
    simp at hy
    subst hy
    rw [adjMatch] at hadj
    cases hgl : picks.getLast? with
    | none => rw [hgl] at hx; simp at hx
    | some p =>
      rw [hgl] at hadj hx
      simp at hadj hx
      subst hx
      exact fun hh => hadj hh.symm

/-- When every random value is below 0.5, one greedy step keeps adjacent
picked categories distinct. -/
theorem rowStep_chain (lastT : Option String) (rand : Nat → ℚ) (row : Cand)
    (picks : List Cand) (k : Nat) (hr : alwaysSkip rand)
    (h : List.Chain' (fun a b => a.itype ≠ b.itype) picks) :
    List.Chain' (fun a b => a.itype ≠ b.itype) (rowStep lastT rand row picks k).1 := by
  have hAdj : ∀ k2, List.Chain' (fun a b => a.itype ≠ b.itype)
      (rowStepAdj rand row picks k2).1 := by
    intro k2
    rw [rowStepAdj]
    split
    · rw [if_pos (hr k2)]
      exact h
    · rename_i hadj
      exact appendPick_chain row picks h (by simpa using hadj)
  rw [rowStep]
  split
  · rw [if_pos (lt_trans (hr k) (by decide))]
    exact h
  · exact hAdj k

/-- When every random value is below 0.5, the greedy loop keeps adjacent
picked categories distinct. -/
theorem mainLoop_chain (lastT : Option String) (maxC : Nat) (rand : Nat → ℚ)
    (rows : List Cand) (hr : alwaysSkip rand) :
    ∀ picks k, List.Chain' (fun a b => a.itype ≠ b.itype) picks →
      List.Chain' (fun a b => a.itype ≠ b.itype)
        (mainLoop lastT maxC rand rows picks k).1 := by
  induction rows with
  | nil => intro picks k h; simpa [mainLoop] using h
  | cons row rest ih =>
    intro picks k h
    rw [mainLoop]
    split
    · exact h
    · exact ih _ _ (rowStep_chain lastT rand row picks k hr h)

/-- Saving a pick never touches rows dated on other days. -/
theorem save_preserves_other_days (history : List HistEntry)
    (recipe itype : String) (today : Int) :
    (save_today_pick history recipe itype today).filter (fun e => !todayB today e) =
      history.filter (fun e => !todayB today e) := by
  cases hf : history.find? (todayB today) with
  | none =>
    simp only [save_today_pick, hf]
    rw [List.filter_append]
    simp [todayB]
  | some e0 =>
    simp only [save_today_pick, hf]
    split
    · rfl
    · rw [List.filter_append, List.filter_filter]
      simp [todayB]

/-- Saving a pick leaves at most one row dated today, provided the
loaded history already had at most one. -/
theorem save_count_le_one (history : List HistEntry) (recipe itype : String)
    (today : Int) (h : countToday history today ≤ 1) :
    countToday (save_today_pick history recipe itype today) today ≤ 1 := by
  cases hf : history.find? (todayB today) with
  | none =>
    have hnone : history.filter (todayB today) = [] := by
      rw [List.filter_eq_nil_iff]
      exact List.find?_eq_none.mp hf
    simp only [save_today_pick, hf]
    rw [countToday, List.filter_append, hnone]
    simp [todayB]
  | some e0 =>
    simp only [save_today_pick, hf]
    split
    · exact h
    · rw [countToday, List.filter_append, List.filter_filter]
      simp [todayB]

/-- If today's stored pick already names this recipe (case-insensitive,
trimmed), the history is returned unchanged. -/
theorem save_same_pick_id (history : List HistEntry) (recipe itype : String)
    (today : Int) (hs : samePickB history recipe today = true) :
    save_today_pick history recipe itype today = history := by
  rw [samePickB] at hs
  cases hf : history.find? (todayB today) with
  | none => rw [hf] at hs; simp at hs
  | some e0 =>
    rw [hf] at hs
    simp only [save_today_pick, hf]
    simp only at hs
    rw [if_pos hs]

/-! ### Claims -/

/-- C1, counterexample.  The claim's own Scenario B: catalog `{(A, X)}`,
history `{(today, A, X)}`, `min_count = 1`, `max_count = 3`.  The claim
says the 7-day filter is relaxed and `A` is returned; the code applies
the filter unconditionally (line 45) and both fill passes re-walk the
already filtered frame, so the output is empty. -/
theorem claim_C1_cex :
    recommend [⟨"A", "X"⟩] [⟨some 0, "A", some "X"⟩] 1 3 0 (fun _ => mkRat 0 1) = [] := by
  decide

/-- C1, amended.  The 7-day filter is never relaxed: with catalog
`{(A, X)}` and history `{(today, A, X)}`, for every current date and
every random stream the output is empty rather than `[A]`. -/
theorem claim_C1_amended (today : Int) (rand : Nat → ℚ) :
    recommend [⟨"A", "X"⟩] [⟨some today, "A", some "X"⟩] 1 3 today rand = [] := by
  have hc : candList [⟨"A", "X"⟩] [⟨some today, "A", some "X"⟩] today =
      [⟨"A", "X", some today, some (today - today)⟩] := rfl
  have helig : eligList [⟨"A", "X"⟩] [⟨some today, "A", some "X"⟩] today = [] := by
    rw [eligList, hc, sub_self]
    rfl
  rw [recommend]
  have hemp : ([⟨"A", "X"⟩] : List Recipe).isEmpty = false := rfl
  rw [hemp]
  simp only [Bool.false_eq_true, if_false]
  rw [helig]
  exact recommendCore_nil _ _ _ _

/-- C2, counterexample.  Catalog `{(Rice, Lunch)}` (non-empty), history
`{(5 days ago, Rice, Lunch)}`, `min_count = 1 ≤ max_count = 3`: the
output length is 0, below `min(min_count, |catalog|) = 1`. -/
theorem claim_C2_cex :
    (recommend [⟨"Rice", "Lunch"⟩] [⟨some 95, "Rice", some "Lunch"⟩] 1 3 100
        (fun _ => mkRat 0 1)).length = 0 ∧
      ([⟨"Rice", "Lunch"⟩] : List Recipe) ≠ [] := by
  decide

/-- C2, amended.  For a non-empty catalog and positive
`min_count ≤ max_count` the output length lies between
`min(min_count, E)` and `min(max_count, E)`, where `E` is the number of
distinct recipe names among the candidates that survive the 7-day
filter (not `|catalog|`: recently eaten recipes are excluded with no
fallback). -/
theorem claim_C2_amended (catalog : List Recipe) (history : List HistEntry)
    (minC maxC : Nat) (today : Int) (rand : Nat → ℚ)
    (h0 : 0 < minC) (h1 : minC ≤ maxC) (h2 : catalog ≠ []) :
    min minC (eligCount catalog history today) ≤
        (recommend catalog history minC maxC today rand).length ∧
      (recommend catalog history minC maxC today rand).length ≤
        min maxC (eligCount catalog history today) := by
  refine ⟨recommend_length_lower catalog history minC maxC today rand, ?_⟩
  exact le_min (recommend_length_le catalog history minC maxC today rand h1)
    (recommend_length_le_names catalog history minC maxC today rand)

/-- C2, witness: Scenario C (three never-eaten candidates of one
category, `min = max = 2`) instantiates the amended bounds. -/
theorem claim_C2_witness :
    0 < 2 ∧ 2 ≤ 2 ∧ ([⟨"A", "X"⟩, ⟨"B", "X"⟩, ⟨"C", "X"⟩] : List Recipe) ≠ [] ∧
      (min 2 (eligCount [⟨"A", "X"⟩, ⟨"B", "X"⟩, ⟨"C", "X"⟩] [] 0) ≤
          (recommend [⟨"A", "X"⟩, ⟨"B", "X"⟩, ⟨"C", "X"⟩] [] 2 2 0
            (fun _ => mkRat 0 1)).length ∧
        (recommend [⟨"A", "X"⟩, ⟨"B", "X"⟩, ⟨"C", "X"⟩] [] 2 2 0
            (fun _ => mkRat 0 1)).length ≤
          min 2 (eligCount [⟨"A", "X"⟩, ⟨"B", "X"⟩, ⟨"C", "X"⟩] [] 0)) :=
  ⟨by decide, by decide, by decide,
    claim_C2_amended [⟨"A", "X"⟩, ⟨"B", "X"⟩, ⟨"C", "X"⟩] [] 2 2 0
      (fun _ => mkRat 0 1) (by decide) (by decide) (by decide)⟩

/-- C3, counterexample.  Catalog `{(Dal, Dinner)}` is non-empty, yet with
`(2 days ago, Dal, Dinner)` in the history the output is empty: the
returned sequence can be empty on a non-empty catalog. -/
theorem claim_C3_cex :
    recommend [⟨"Dal", "Dinner"⟩] [⟨some 10, "Dal", some "Dinner"⟩] 1 2 12
        (fun _ => mkRat 0 1) = [] ∧
      ([⟨"Dal", "Dinner"⟩] : List Recipe) ≠ [] := by
  decide

/-- C3, amended.  For positive `min_count`, the output is empty exactly
when the 7-day filter leaves no candidate (in particular it is empty on
an empty catalog, but also on a non-empty catalog whose recipes were all
eaten within the last week). -/
theorem claim_C3_amended (catalog : List Recipe) (history : List HistEntry)
    (minC maxC : Nat) (today : Int) (rand : Nat → ℚ) (h : 0 < minC) :
    recommend catalog history minC maxC today rand = [] ↔
      eligList catalog history today = [] := by
  constructor
  · intro hnil
    by_contra hne
    have hE : 0 < eligCount catalog history today := by
      rw [eligCount, List.length_pos, Ne, List.dedup_eq_nil, List.map_eq_nil_iff]
      exact hne
    have hlow := recommend_length_lower catalog history minC maxC today rand
    rw [hnil] at hlow
    simp at hlow
    omega
  · intro he
    rw [recommend]
    split
    · rfl
    · rw [he]
      exact recommendCore_nil _ _ _ _

/-- C3, witness: a recipe eaten two days ago leaves an empty filtered
set, and the equivalence instantiates to an empty output. -/
theorem claim_C3_witness :
    0 < 1 ∧
      (recommend [⟨"Poha", "Breakfast"⟩] [⟨some 3, "Poha", some "Breakfast"⟩] 1 4 5
          (fun _ => mkRat 0 1) = [] ↔
        eligList [⟨"Poha", "Breakfast"⟩] [⟨some 3, "Poha", some "Breakfast"⟩] 5 = []) :=
  ⟨by decide,
    claim_C3_amended [⟨"Poha", "Breakfast"⟩] [⟨some 3, "Poha", some "Breakfast"⟩] 1 4 5
      (fun _ => mkRat 0 1) (by decide)⟩

/-- C4, confirmed (in the strong form).  Every output row satisfies the
7-day condition: a dated output row has `days_since ≥ 7`, for every
catalog, history, parameters and random stream.  The claim's conditional
("a recent row appears only if eligible rows were short of `min_count`")
follows at once, since its antecedent can never hold. -/
theorem claim_C4 (catalog : List Recipe) (history : List HistEntry)
    (minC maxC : Nat) (today : Int) (rand : Nat → ℚ) (c : Cand) (d : Int)
    (h1 : c ∈ recommend catalog history minC maxC today rand)
    (h2 : c.daysAgo = some d) : 7 ≤ d := by
  have he : c ∈ eligList catalog history today :=
    recommend_subset_elig catalog history minC maxC today rand c h1
  have hb : eligibleB c = true := (List.mem_filter.mp he).2
  rw [eligibleB, h2] at hb
  exact of_decide_eq_true hb

/-- C4, witness: a recipe eaten 10 days ago is recommended and its
`days_since = 10` indeed satisfies `7 ≤ 10`. -/
theorem claim_C4_witness :
    (⟨"Rice", "Lunch", some 90, some 10⟩ : Cand) ∈
        recommend [⟨"Rice", "Lunch"⟩] [⟨some 90, "Rice", some "Lunch"⟩] 1 3 100
          (fun _ => mkRat 0 1) ∧
      (⟨"Rice", "Lunch", some 90, some 10⟩ : Cand).daysAgo = some 10 ∧ (7 : Int) ≤ 10 :=
  ⟨by decide, by decide,
    claim_C4 [⟨"Rice", "Lunch"⟩] [⟨some 90, "Rice", some "Lunch"⟩] 1 3 100
      (fun _ => mkRat 0 1) ⟨"Rice", "Lunch", some 90, some 10⟩ 10 (by decide) rfl⟩

/-- C5, counterexample.  A recipe last eaten 10000 days ago scores
`10000 + r/100 ≥ 10000`, beating the never-eaten sentinel `9999 + r'`:
the dated row `Old` sorts ahead of the never-eaten row `New` (random
values drawn as 0, a value `random.random()` can return). -/
theorem claim_C5_cex :
    sortedCands [⟨"Old", "X"⟩, ⟨"New", "Y"⟩] [⟨some 0, "Old", some "X"⟩] 10000
        (fun _ => mkRat 0 1) =
      [⟨"Old", "X", some 0, some 10000⟩, ⟨"New", "Y", none, none⟩] := by
  decide

/-- C5, amended.  With random values in `[0, 1)`, a never-eaten candidate
sorts ahead of every candidate whose `days_since` is at most 9998; a
dated candidate can precede a never-eaten one only when its `days_since`
is at least 9999 (the `9999 + random()` sentinel is not above every
finite score). -/
theorem claim_C5_amended (catalog : List Recipe) (history : List HistEntry)
    (today : Int) (rand : Nat → ℚ) (hr : randOk rand) :
    (sortedCands catalog history today rand).Pairwise
      (fun a b => b.daysAgo = none → a.daysAgo = none ∨ 9999 ≤ a.daysAgo.getD 0) := by
  rw [sortedCands, sortedOf, List.pairwise_map]
  have hsorted : List.Pairwise scoreGe
      (sortedScoredOf (eligList catalog history today) rand) :=
    List.sorted_insertionSort scoreGe _
  refine List.Pairwise.imp_of_mem ?_ hsorted
  intro a b ha hb hab hbnone
  obtain ⟨na, hna⟩ := mem_sortedScoredOf _ _ a ha
  obtain ⟨nb, hnb⟩ := mem_sortedScoredOf _ _ b hb
  by_cases hda : a.1.daysAgo = none
  · exact Or.inl hda
  · obtain ⟨d, hd⟩ := Option.ne_none_iff_exists'.mp hda
    right
    rw [hd]
    simp only [Option.getD_some]
    have hab2 : b.2 ≤ a.2 := hab
    rw [hna, hnb, scoreFn_some a.1 d hd (rand na), scoreFn_none b.1 hbnone (rand nb)]
      at hab2
    obtain ⟨h0a, h1a⟩ := hr na
    obtain ⟨h0b, _⟩ := hr nb
    by_contra hlt
    push_neg at hlt
    have hd9 : d ≤ 9998 := by omega
    have hdq : (d : ℚ) ≤ 9998 := by exact_mod_cast hd9
    linarith

/-- C5, witness: a catalog holding one never-eaten and one moderately
dated recipe, with the constant stream 1/2, instantiates the ordering
property. -/
theorem claim_C5_witness :
    randOk (fun _ => mkRat 1 2) ∧
      (sortedCands [⟨"Old", "X"⟩, ⟨"New", "Y"⟩] [⟨some 0, "Old", some "X"⟩] 30
          (fun _ => mkRat 1 2)).Pairwise
        (fun a b => b.daysAgo = none → a.daysAgo = none ∨ 9999 ≤ a.daysAgo.getD 0) := by
  have hr : randOk (fun _ => mkRat 1 2) := by
    intro n
    show (0 : ℚ) ≤ mkRat 1 2 ∧ mkRat 1 2 < 1
    exact ⟨by decide, by decide⟩
  exact ⟨hr, claim_C5_amended [⟨"Old", "X"⟩, ⟨"New", "Y"⟩] [⟨some 0, "Old", some "X"⟩]
    30 (fun _ => mkRat 1 2) hr⟩

/-- C6, counterexample.  Scenario A of the claim (catalog
`{(Idli, Breakfast), (Dosa, Breakfast), (Soup, Dinner)}`, empty history,
`min = 1`, `max = 3`) with legal random values: scores order the rows
Idli, Dosa, Soup, and the 0.5-probability skip for Dosa does not fire
(draw 9/10), so the output places the two Breakfast recipes adjacently
even though Soup was available to separate them. -/
theorem claim_C6_cex :
    recommend [⟨"Idli", "Breakfast"⟩, ⟨"Dosa", "Breakfast"⟩, ⟨"Soup", "Dinner"⟩] [] 1 3 0
        (fun n => if n = 0 then mkRat 3 10 else if n = 1 then mkRat 1 5
          else if n = 2 then mkRat 1 10 else mkRat 9 10) =
      [⟨"Idli", "Breakfast", none, none⟩, ⟨"Dosa", "Breakfast", none, none⟩,
        ⟨"Soup", "Dinner", none, none⟩] := by
  decide

/-- C6, amended.  The adjacency rule is only a per-encounter coin flip
(probability 0.5, line 85), so same-category neighbours can occur; when
every drawn value signals a skip, the greedy phase (before the
`min_count` fill passes, which ignore categories) yields no two adjacent
picks of equal category. -/
theorem claim_C6_amended (catalog : List Recipe) (history : List HistEntry)
    (maxC : Nat) (today : Int) (rand : Nat → ℚ) (hr : alwaysSkip rand) :
    List.Chain' (fun a b => a.itype ≠ b.itype)
      (mainPicks catalog history maxC today rand) := by
  rw [mainPicks, corePicks1]
  exact mainLoop_chain _ _ _ _ hr [] _ List.chain'_nil

/-- C6, witness: Scenario A's catalog with the constant stream 0 (every
coin skips) gives a greedy phase with no same-category adjacency. -/
theorem claim_C6_witness :
    alwaysSkip (fun _ => mkRat 0 1) ∧
      List.Chain' (fun a b => a.itype ≠ b.itype)
        (mainPicks [⟨"Idli", "Breakfast"⟩, ⟨"Dosa", "Breakfast"⟩, ⟨"Soup", "Dinner"⟩]
          [] 3 0 (fun _ => mkRat 0 1)) := by
  have hr : alwaysSkip (fun _ => mkRat 0 1) := by
    intro n
    show mkRat 0 1 < mkRat 1 2
    decide
  exact ⟨hr, claim_C6_amended
    [⟨"Idli", "Breakfast"⟩, ⟨"Dosa", "Breakfast"⟩, ⟨"Soup", "Dinner"⟩] [] 3 0
    (fun _ => mkRat 0 1) hr⟩

/-- C7, counterexample.  Same catalog, history, date and counts, two
legal random streams: one run returns all of `A, B, C`, the other only
`A` — the selected multisets (and even the lengths) differ, so the two
runs are not set-equal modulo ordering. -/
theorem claim_C7_cex :
    (recommend [⟨"A", "X"⟩, ⟨"B", "X"⟩, ⟨"C", "X"⟩] [] 1 3 0
        (fun n => if n = 0 then mkRat 1 2 else if n = 1 then mkRat 2 5
          else if n = 2 then mkRat 3 10 else mkRat 9 10)).map Cand.name =
      ["A", "B", "C"] ∧
    (recommend [⟨"A", "X"⟩, ⟨"B", "X"⟩, ⟨"C", "X"⟩] [] 1 3 0
        (fun n => if n = 0 then mkRat 1 2 else if n = 1 then mkRat 2 5
          else if n = 2 then mkRat 3 10 else mkRat 0 1)).map Cand.name =
      ["A"] := by
  decide

/-- C7, amended.  What is invariant across two runs on the same inputs
is the filtered candidate pool (the days-since computation and the
7-day filter draw no randomness): both outputs are subsets of the same
filtered set.  The selected multiset itself may differ between runs,
because the category-skip coin flips decide how many and which rows are
taken. -/
theorem claim_C7_amended (catalog : List Recipe) (history : List HistEntry)
    (minC maxC : Nat) (today : Int) (rand1 rand2 : Nat → ℚ) :
    recommend catalog history minC maxC today rand1 ⊆
        eligList catalog history today ∧
      recommend catalog history minC maxC today rand2 ⊆
        eligList catalog history today := by
  constructor
  · intro c hc
    exact recommend_subset_elig catalog history minC maxC today rand1 c hc
  · intro c hc
    exact recommend_subset_elig catalog history minC maxC today rand2 c hc

/-- C8, confirmed.  The embedding of `recommend` is a total function (it
is defined by structural recursion on its list inputs for arbitrary
catalogs, histories, counts, dates and random streams — no error path
exists), and a history entry whose date is absent or unparseable
(`date = none`, the result of `errors="coerce"`) is ignored for that
entry only: deleting it anywhere in the history leaves the output
unchanged, so the entry's recipe counts as never-eaten rather than
poisoning the whole computation. -/
theorem claim_C8 (catalog : List Recipe) (h1 h2 : List HistEntry) (e : HistEntry)
    (minC maxC : Nat) (today : Int) (rand : Nat → ℚ) (he : e.date = none) :
    recommend catalog (h1 ++ e :: h2) minC maxC today rand =
      recommend catalog (h1 ++ h2) minC maxC today rand :=
  recommend_congr_view catalog (h1 ++ e :: h2) (h1 ++ h2) minC maxC today rand
    (lastDate_ignore_undated h1 h2 e he)
    (lastItemType_ignore_undated h1 h2 e he)

/-- C8, witness: a dateless row `Bad` inserted before a dated `Rice` row
does not change the recommendation. -/
theorem claim_C8_witness :
    (⟨none, "Bad", some "Y"⟩ : HistEntry).date = none ∧
      recommend [⟨"Rice", "Lunch"⟩]
          [⟨none, "Bad", some "Y"⟩, ⟨some 0, "Rice", some "Lunch"⟩] 1 3 7
          (fun _ => mkRat 0 1) =
        recommend [⟨"Rice", "Lunch"⟩] [⟨some 0, "Rice", some "Lunch"⟩] 1 3 7
          (fun _ => mkRat 0 1) :=
  ⟨rfl, claim_C8 [⟨"Rice", "Lunch"⟩] [] [⟨some 0, "Rice", some "Lunch"⟩]
    ⟨none, "Bad", some "Y"⟩ 1 3 7 (fun _ => mkRat 0 1) rfl⟩

/-- C9, counterexample.  Two calls with identical catalog, history,
today and counts need not agree: the hidden random draws also determine
the result (here one run keeps `Q` and the other skips it), so the
output is not a function of the four listed inputs alone. -/
theorem claim_C9_cex :
    recommend [⟨"P", "X"⟩, ⟨"Q", "X"⟩] [] 1 2 0
        (fun n => if n = 0 then mkRat 1 2 else if n = 1 then mkRat 1 4 else mkRat 3 4) ≠
      recommend [⟨"P", "X"⟩, ⟨"Q", "X"⟩] [] 1 2 0
        (fun n => if n = 0 then mkRat 1 2 else if n = 1 then mkRat 1 4 else mkRat 0 1) := by
  decide

/-- C9, amended.  The embedding has no mutable state, and the result
depends only on the catalog, the counts, today, the per-call random
stream, and the history — the latter only through each recipe's most
recent date and the most recent entry's category: histories equal under
that view yield equal outputs. -/
theorem claim_C9_amended (catalog : List Recipe) (hist1 hist2 : List HistEntry)
    (minC maxC : Nat) (today : Int) (rand : Nat → ℚ)
    (hv : sameHistView hist1 hist2) :
    recommend catalog hist1 minC maxC today rand =
      recommend catalog hist2 minC maxC today rand :=
  recommend_congr_view catalog hist1 hist2 minC maxC today rand hv.1 hv.2

/-- C9, witness: a history holding only a dateless junk row is
indistinguishable from the empty history. -/
theorem claim_C9_witness :
    sameHistView [⟨none, "Junk", none⟩] [] ∧
      recommend [⟨"A", "X"⟩] [⟨none, "Junk", none⟩] 1 3 0 (fun _ => mkRat 0 1) =
        recommend [⟨"A", "X"⟩] [] 1 3 0 (fun _ => mkRat 0 1) := by
  have hv : sameHistView [⟨none, "Junk", none⟩] [] := by
    constructor
    · intro r
      have hfm : List.filterMap
          (fun e : HistEntry => if e.recipe = r then e.date else none)
          ([⟨none, "Junk", none⟩] : List HistEntry) = [] := by
        simp [List.filterMap_cons]
      rw [lastDate, lastDate, hfm]
      rfl
    · rfl
  exact ⟨hv, claim_C9_amended [⟨"A", "X"⟩] [⟨none, "Junk", none⟩] [] 1 3 0
    (fun _ => mkRat 0 1) hv⟩

/-- C10, confirmed.  If the loaded history holds at most one row dated
today, then after `save_today_pick`: (1) it still holds at most one row
dated today; (2) rows dated on other days are exactly preserved, in
order; (3) when the stored pick already names this recipe
(case-insensitive, after trimming) the history is returned unchanged. -/
theorem claim_C10 (history : List HistEntry) (recipe itype : String) (today : Int)
    (h : countToday history today ≤ 1) :
    countToday (save_today_pick history recipe itype today) today ≤ 1 ∧
      (save_today_pick history recipe itype today).filter (fun e => !todayB today e) =
        history.filter (fun e => !todayB today e) ∧
      (samePickB history recipe today = false ∨
        save_today_pick history recipe itype today = history) := by
  refine ⟨save_count_le_one history recipe itype today h,
    save_preserves_other_days history recipe itype today, ?_⟩
  cases hsp : samePickB history recipe today with
  | false => exact Or.inl rfl
  | true => exact Or.inr (save_same_pick_id history recipe itype today hsp)

/-- C10, witness: replacing today's `Rice` pick by `Dosa` in a one-row
history instantiates all three conclusions. -/
theorem claim_C10_witness :
    countToday [⟨some 5, "Rice", some "Lunch"⟩] 5 ≤ 1 ∧
      (countToday (save_today_pick [⟨some 5, "Rice", some "Lunch"⟩] "Dosa" "Dinner" 5) 5 ≤ 1 ∧
        (save_today_pick [⟨some 5, "Rice", some "Lunch"⟩] "Dosa" "Dinner" 5).filter
            (fun e => !todayB 5 e) =
          ([⟨some 5, "Rice", some "Lunch"⟩] : List HistEntry).filter (fun e => !todayB 5 e) ∧
        (samePickB [⟨some 5, "Rice", some "Lunch"⟩] "Dosa" 5 = false ∨
          save_today_pick [⟨some 5, "Rice", some "Lunch"⟩] "Dosa" "Dinner" 5 =
            [⟨some 5, "Rice", some "Lunch"⟩])) :=
  ⟨by decide, claim_C10 [⟨some 5, "Rice", some "Lunch"⟩] "Dosa" "Dinner" 5 (by decide)⟩

end MealPlanner
